import Mathlib

/-!
Verification of the incremental PNG→WebP conversion pipeline in
`builder/converter.py`: the content-hash cache (`load_lock_file` /
`save_lock_file`), the per-file state machine (`process_file` /
`convert_image`), the recursive traversal (`process_directory`) and the
concurrency primitives (the `asyncio.Semaphore` created in
`process_directory` and the `asyncio.Lock()` created in each
`load_lock_file` / `save_lock_file` call).

Python `dict`s are modelled as association lists with Python's semantics:
unique keys, insertion order preserved, assignment to an existing key
replaces the value in place, assignment to a fresh key appends at the end.
Filesystem paths are lists of segments relative to the input (or output)
root; the blocking environment (file hashing, artifact existence, the
Pillow encode call) is an explicit `Env` record, so the per-file logic is
a pure function of the environment.
-/

/-- Python `dict` with `String` keys: an association list in insertion
order with unique keys. -/
abbrev Dict (V : Type) := List (String × V)

/-- Key lookup, `d[k]` / `k in d`: first (and, for a real dict, only)
binding wins. -/
def dlookup {V : Type} : Dict V → String → Option V
  | [], _ => none
  | p :: rest, k => if p.1 = k then some p.2 else dlookup rest k

/-- Assignment `d[k] = v`: replace in place if the key exists, else append
at the end (Python dict insertion-order semantics). -/
def dinsert {V : Type} : Dict V → String → V → Dict V
  | [], k, v => [(k, v)]
  | p :: rest, k, v => if p.1 = k then (k, v) :: rest else p :: dinsert rest k v

/-- Python `d.update(e)`: assign every binding of `e` into `d`, in order. -/
def dupdate {V : Type} (d e : Dict V) : Dict V :=
  e.foldl (fun acc p => dinsert acc p.1 p.2) d

/-- The list of keys of a dict, in order. -/
def dkeys {V : Type} (d : Dict V) : List String := d.map Prod.fst

/-- Left-biased choice on `Option`, the lookup semantics of list append. -/
def oor {V : Type} : Option V → Option V → Option V
  | some v, _ => some v
  | none, b => b

/-- One cache entry, as written by `process_file` into `new_hashes`.
`folder` is `Option` because `save_lock_file` tolerates entries without a
`"folder"` key (`file_data.get("folder", "root")`). -/
structure CacheEntry where
  input_hash : String
  output_hash : String
  folder : Option String
  original_name : String
  webp_name : String
  last_conversion : String
deriving DecidableEq, Repr

/-- The `metadata` object of the persisted lock file. -/
structure Metadata where
  last_update : String
  total_files : Nat
  version : String
deriving DecidableEq, Repr

/-- A parsed lock-file document: either it has a `"files"` key (the nested
by-folder layout written by `save_lock_file`) or it does not, in which
case `load_lock_file` treats the whole document as an already flat
mapping. -/
inductive LockData where
  | nested (metadata : Metadata) (files : Dict (Dict CacheEntry)) : LockData
  | flat (entries : Dict CacheEntry) : LockData
deriving DecidableEq, Repr

/-- The `files` component of a document (empty for a flat legacy document). -/
def filesOf : LockData → Dict (Dict CacheEntry)
  | .nested _ fs => fs
  | .flat _ => []

/-- The `metadata` component of a document (a dummy for a flat document). -/
def metadataOf : LockData → Metadata
  | .nested m _ => m
  | .flat _ => ⟨"", 0, ""⟩

/-- One grouping step of `save_lock_file`:
`organized_hashes["files"][file_data.get("folder", "root")][file_path] = file_data`. -/
def orgStep (org : Dict (Dict CacheEntry)) (p : String × CacheEntry) :
    Dict (Dict CacheEntry) :=
  dinsert org (p.2.folder.getD "root")
    (dinsert ((dlookup org (p.2.folder.getD "root")).getD []) p.1 p.2)

/-- The nested `files` structure built by `save_lock_file`: entries grouped
by their `folder` field (defaulting to `"root"`), in insertion order. -/
def organize (hashes : Dict CacheEntry) : Dict (Dict CacheEntry) :=
  hashes.foldl orgStep []

/-- The whole document written by `save_lock_file` at time `now`:
metadata (current timestamp, entry count, fixed version string) plus the
folder-grouped entries. -/
def save_doc (now : String) (hashes : Dict CacheEntry) : LockData :=
  .nested { last_update := now, total_files := hashes.length, version := "1.0" }
    (organize hashes)

/-- The flattening loop of `load_lock_file`:
`for folder_files in data["files"].values(): flat_hashes.update(folder_files)`. -/
def flattenBuckets (files : Dict (Dict CacheEntry)) : Dict CacheEntry :=
  files.foldl (fun acc b => dupdate acc b.2) []

/-- Concatenation of all folder buckets, in order. -/
def gjoin (org : Dict (Dict CacheEntry)) : Dict CacheEntry :=
  (org.map Prod.snd).flatten

/-- The pure content of `load_lock_file`: `none` models a missing file
(empty mapping); a document with a `"files"` key is flattened, folder
grouping discarded; a document without one is returned as is. -/
def load_lock_file : Option LockData → Dict CacheEntry
  | none => []
  | some (.nested _ files) => flattenBuckets files
  | some (.flat d) => d

/-- A filesystem operation performed by `save_lock_file` on the cache path:
`openTrunc` models `open(lock_file, "w")` (truncating open), `write`
models `json.dump` completing, `rename` models an atomic replace (which
the source never performs). -/
inductive FsOp where
  | openTrunc (path : String) : FsOp
  | write (path : String) (doc : LockData) : FsOp
  | rename (src dst : String) : FsOp
deriving DecidableEq, Repr

/-- Observable content of a path: absent, truncated (opened for writing
but the dump not yet complete), or a complete document. -/
inductive FileContent where
  | absent : FileContent
  | truncated : FileContent
  | complete (doc : LockData) : FileContent
deriving DecidableEq, Repr

/-- Effect of one filesystem operation on the per-path content map. -/
def applyOp (st : String → FileContent) : FsOp → String → FileContent
  | .openTrunc p => fun q => if q = p then .truncated else st q
  | .write p d => fun q => if q = p then .complete d else st q
  | .rename src dst => fun q =>
      if q = dst then st src else if q = src then .absent else st q

/-- Effect of a sequence of filesystem operations; a crash mid-save leaves
the state after some prefix of the sequence. -/
def applyOps (st : String → FileContent) (ops : List FsOp) : String → FileContent :=
  ops.foldl applyOp st

/-- The operation sequence of `save_lock_file` on the cache path: a single
truncating open of `lock_file` itself followed by the `json.dump` of the
whole document. There is no temporary file and no rename. -/
def save_lock_file_ops (lockPath : String) (now : String)
    (hashes : Dict CacheEntry) : List FsOp :=
  [FsOp.openTrunc lockPath, FsOp.write lockPath (save_doc now hashes)]

/-- Identity of the exclusion primitive guarding the file I/O of the n-th
`load_lock_file`/`save_lock_file` call: both functions execute
`async with asyncio.Lock():`, allocating a fresh lock object per call, so
the lock identity is the call index itself. -/
def lockFileLock (call : Nat) : Nat := call

/-- A half-open execution interval of one unit of work. -/
structure Span where
  start : Nat
  stop : Nat
deriving DecidableEq, Repr

/-- Whether an interval is active at instant `t`. -/
def activeAt (iv : Span) (t : Nat) : Bool :=
  decide (iv.start ≤ t) && decide (t < iv.stop)

/-- Two intervals overlap when some instant lies in both. -/
abbrev overlaps (a b : Span) : Prop :=
  max a.start b.start < min a.stop b.stop

/-- A schedule of critical sections is admissible for a lock assignment
when no two distinct calls holding the same lock overlap: that is all the
mutual exclusion a lock provides. -/
abbrev lockAdmissible (calls : List Nat) (lockOf : Nat → Nat)
    (sched : Nat → Span) : Prop :=
  ∀ i ∈ calls, ∀ j ∈ calls, i ≠ j → lockOf i = lockOf j →
    ¬ overlaps (sched i) (sched j)

/-- Capacity of the semaphore: `MAX_CONCURRENT_OPERATIONS = 5`. -/
def MAX_CONCURRENT_OPERATIONS : Nat := 5

/-- The blocking environment of one run: content hash of an input file,
existence of an output artifact, and the outcome of the encode step
(`Image.open(...).save(...)` followed by hashing the artifact): the
artifact hash on success, the exception text on failure. Paths are
segment lists relative to the input/output root. -/
structure Env where
  hashOf : List String → String
  webpExists : List String → Bool
  encodeResult : List String → Except String String
  now : String

/-- Rendering of a relative path, `str(Path(...))`. -/
def pathStr (segs : List String) : String := String.intercalate "/" segs

/-- Path of a source file `dirs/stem.png` relative to the input root. -/
def pngPath (dirs : List String) (stem : String) : List String :=
  dirs ++ [stem ++ ".png"]

/-- Path of the artifact `dirs/stem.webp` relative to the output root. -/
def webpPath (dirs : List String) (stem : String) : List String :=
  dirs ++ [stem ++ ".webp"]

/-- The cache key of a file: `str(relative_path)`. -/
def fileKey (dirs : List String) (stem : String) : String :=
  pathStr (pngPath dirs stem)

/-- The folder string `str(relative_path.parent)`: `"."` for a top-level
file, else the slash-joined parent path. -/
def parentStr (dirs : List String) : String :=
  if dirs = [] then "." else pathStr dirs

/-- The display label used only in log messages:
`"root" if folder_structure == "." else folder_structure`. -/
def folderDisplay (dirs : List String) : String :=
  if parentStr dirs = "." then "root" else parentStr dirs

/-- Result of `convert_image`: the artifact hash, or `none` after a caught
exception, together with the log lines it emits. -/
def convert_image (env : Env) (inPath : List String) :
    Option String × List String :=
  match env.encodeResult inPath with
  | .ok h => (some h, [])
  | .error e => (none, ["Error converting " ++ pathStr inPath ++ ": " ++ e])

/-- Result of `process_file` for one source file: the entry placed into
`new_hashes` (if any), whether `convert_image` was invoked, and the log
lines emitted. -/
structure FileResult where
  entry? : Option CacheEntry
  converted : Bool
  logs : List String
deriving DecidableEq, Repr

/-- The per-file state machine of `process_file`: skip (copying the old
entry unchanged) iff the key is cached, the stored `input_hash` equals the
fresh hash, and the artifact exists; otherwise convert, adding an entry
only when `convert_image` returns a truthy hash. -/
def process_file (env : Env) (cache : Dict CacheEntry) (dirs : List String)
    (stem : String) : FileResult :=
  let inputHash := env.hashOf (pngPath dirs stem)
  let fd := folderDisplay dirs
  let pngName := stem ++ ".png"
  let convertBranch : FileResult :=
    let conv := convert_image env (pngPath dirs stem)
    match conv.1 with
    | some outHash =>
      if outHash = "" then
        { entry? := none, converted := true,
          logs := ["Converting [" ++ fd ++ "] " ++ pngName] ++ conv.2 ++
            ["Failed to convert [" ++ fd ++ "] " ++ pngName] }
      else
        let e : CacheEntry :=
          { input_hash := inputHash, output_hash := outHash,
            folder := some (parentStr dirs), original_name := pngName,
            webp_name := stem ++ ".webp", last_conversion := env.now }
        { entry? := some e, converted := true,
          logs := ["Converting [" ++ fd ++ "] " ++ pngName] ++ conv.2 ++
            ["Successfully converted [" ++ fd ++ "] " ++ pngName] }
    | none =>
      { entry? := none, converted := true
        logs := ["Converting [" ++ fd ++ "] " ++ pngName] ++ conv.2 ++
          ["Failed to convert [" ++ fd ++ "] " ++ pngName] }
  match dlookup cache (fileKey dirs stem) with
  | some old =>
    if env.hashOf (pngPath dirs stem) = old.input_hash ∧
        env.webpExists (webpPath dirs stem) = true then
      { entry? := some old, converted := false,
        logs := ["Skipping [" ++ fd ++ "] " ++ pngName ++
          " - already converted and unchanged"] }
    else convertBranch
  | none => convertBranch

/- The input directory tree: the `*.png` file stems at this level (the
glob matches `stem.png`) and the immediate subdirectories, in iteration
order. -/
mutual
inductive InputTree where
  | node (files : List String) (subs : Forest) : InputTree
inductive Forest where
  | nil : Forest
  | cons (name : String) (tree : InputTree) (rest : Forest) : Forest
end

/-- One operation of the traversal trace: creating an output directory
(`output_path.mkdir(parents=True, exist_ok=True)`) or dispatching the
task for one file. -/
inductive TraceOp where
  | mkdir (outDirs : List String) : TraceOp
  | processFile (key : String) : TraceOp
deriving DecidableEq, Repr

/-- Result of `process_directory` for one subtree: the merged
`new_hashes`, the number of `convert_image` invocations, and the
traversal trace. -/
structure DirResult where
  hashes : Dict CacheEntry
  conversions : Nat
  trace : List TraceOp
deriving DecidableEq, Repr

/- The recursive traversal of `process_directory`. Files at this level
write their entries into the level's fresh `new_hashes` (file task order;
keys are distinct so the mapping does not depend on completion order),
then `new_hashes.update(result)` folds in each subdirectory result in
`asyncio.gather` order. The trace records that the output directory is
created synchronously before any task of this level is dispatched. -/
/-- Entries written by this level's file tasks into the fresh
`new_hashes` of one `process_directory` call, in file task order. -/
def levelHashes (env : Env) (cache : Dict CacheEntry) (dirs : List String)
    (fs : List String) : Dict CacheEntry :=
  fs.foldl (fun acc stem =>
    match (process_file env cache dirs stem).entry? with
    | some e => dinsert acc (fileKey dirs stem) e
    | none => acc) []

/-- Number of `convert_image` invocations among this level's files. -/
def levelConversions (env : Env) (cache : Dict CacheEntry)
    (dirs : List String) (fs : List String) : Nat :=
  fs.foldl (fun n stem =>
    if (process_file env cache dirs stem).converted then n + 1 else n) 0

mutual
def process_directory (env : Env) (cache : Dict CacheEntry)
    (dirs : List String) : InputTree → DirResult
  | .node fs subs =>
    let subRes := processSubdirs env cache dirs subs
    let hs := subRes.foldl (fun acc r => dupdate acc r.hashes)
      (levelHashes env cache dirs fs)
    let cv := subRes.foldl (fun n r => n + r.conversions)
      (levelConversions env cache dirs fs)
    let tr := TraceOp.mkdir dirs ::
      ((fs.map fun stem => TraceOp.processFile (fileKey dirs stem)) ++
        (subRes.map DirResult.trace).flatten)
    ⟨hs, cv, tr⟩
def processSubdirs (env : Env) (cache : Dict CacheEntry)
    (dirs : List String) : Forest → List DirResult
  | .nil => []
  | .cons name t rest =>
    process_directory env cache (dirs ++ [name]) t ::
      processSubdirs env cache dirs rest
end

/- All files of a subtree as `(directory, stem)` pairs, in traversal
order (this level's files first, then each subdirectory in order). -/
mutual
def treeFiles (dirs : List String) : InputTree → List (List String × String)
  | .node fs subs => fs.map (fun stem => (dirs, stem)) ++ forestFiles dirs subs
def forestFiles (dirs : List String) : Forest → List (List String × String)
  | .nil => []
  | .cons name t rest => treeFiles (dirs ++ [name]) t ++ forestFiles dirs rest
end

/-- The cache keys of all files of a subtree, in traversal order. -/
def subtreeKeys (dirs : List String) (t : InputTree) : List String :=
  (treeFiles dirs t).map (fun f => fileKey f.1 f.2)

/- All directories visited by the traversal rooted at `dirs`, the root of
the subtree included, whether or not they contain matching files. -/
mutual
def treeDirs (dirs : List String) : InputTree → List (List String)
  | .node _ subs => dirs :: forestDirs dirs subs
def forestDirs (dirs : List String) : Forest → List (List String)
  | .nil => []
  | .cons name t rest => treeDirs (dirs ++ [name]) t ++ forestDirs dirs rest
end

/-- The encode operations of a run, tagged with the identity of the
semaphore they acquire. `process_directory` creates a fresh
`asyncio.Semaphore(MAX_CONCURRENT_OPERATIONS)` in every recursive call
and passes it only to the `process_file` tasks of that directory's own
files, so a conversion at `(d, stem)` acquires the semaphore identified
by `d`. Skipped files never reach `convert_image` and acquire nothing. -/
def convTasks (env : Env) (cache : Dict CacheEntry) (dirs : List String)
    (t : InputTree) : List (List String × String) :=
  ((treeFiles dirs t).filter
    (fun f => (process_file env cache f.1 f.2).converted)).map
    (fun f => (f.1, fileKey f.1 f.2))

/-- A schedule of encode intervals is admissible when it respects every
semaphore's capacity: at every instant, at most
`MAX_CONCURRENT_OPERATIONS` tasks holding the same semaphore are active. -/
def semAdmissible (tasks : List (List String × String))
    (sched : List String × String → Span) : Prop :=
  ∀ (t : Nat), ∀ k ∈ tasks,
    ((tasks.filter fun j => j.1 == k.1 && activeAt (sched j) t)).length ≤
      MAX_CONCURRENT_OPERATIONS

/-- Number of encode operations active at instant `t` system-wide. -/
def runningAt (tasks : List (List String × String))
    (sched : List String × String → Span) (t : Nat) : Nat :=
  (tasks.filter fun j => activeAt (sched j) t).length

/-- The entry contributed by one file to the merged mapping, keyed by its
relative path. -/
def fileEntryPair (env : Env) (cache : Dict CacheEntry)
    (f : List String × String) : Option (String × CacheEntry) :=
  ((process_file env cache f.1 f.2).entry?).map (fun e => (fileKey f.1 f.2, e))

/-- Placeholder entry used only to name the value inside a known-`some`
option. -/
def defaultEntry : CacheEntry := ⟨"", "", none, "", "", ""⟩

/-- A run-1 environment for concrete checks: every source hashes to
`"h1"`, artifacts exist, every encode succeeds with artifact hash `"h2"`. -/
def envA : Env :=
  ⟨fun _ => "h1", fun _ => true, fun _ => .ok "h2", "2024-01-01T00:00:00"⟩

/-- Like `envA` but no artifact exists on disk. -/
def envB : Env :=
  ⟨fun _ => "h1", fun _ => false, fun _ => .ok "h2", "2024-01-01T00:00:00"⟩

/-- A cache holding one up-to-date entry for the top-level file
`logo.png`. -/
def cacheA : Dict CacheEntry :=
  [("logo.png", ⟨"h1", "h2", some ".", "logo.png", "logo.webp",
    "2023-06-01T00:00:00"⟩)]

/-- A tree with five files in the root directory and one file in the
subdirectory `s`. -/
def tree6 : InputTree :=
  .node ["a", "b", "c", "d", "e"] (.cons "s" (.node ["f"] .nil) .nil)

/-- The schedule running every task in the same unit interval. -/
def schedAll : List String × String → Span := fun _ => ⟨0, 1⟩

/-- An environment whose encoder fails on `bad.png` with message `"boom"`
and succeeds everywhere else. -/
def envF : Env :=
  ⟨fun _ => "h1", fun _ => false,
    fun p => if p = ["bad.png"] then .error "boom" else .ok "h2", "T"⟩

/-- Like `envF` but the encoder also succeeds on `bad.png`. -/
def envG : Env :=
  ⟨fun _ => "h1", fun _ => false, fun _ => .ok "h2", "T"⟩

/-- A flat tree with the failing file `bad.png` and the sibling
`good.png`. -/
def tree7 : InputTree := .node ["bad", "good"] .nil

/-- A tree whose root has no matching files and one empty subdirectory
`a`. -/
def treeEmptyA : InputTree := .node [] (.cons "a" (.node [] .nil) .nil)

/-- Lookup after assignment: the assigned key reads the new value, any
other key is untouched. -/
theorem dlookup_dinsert {V : Type} (d : Dict V) (k : String) (v : V)
    (k' : String) :
    dlookup (dinsert d k v) k' = if k' = k then some v else dlookup d k' := by
  induction d with
  | nil =>
    by_cases h : k' = k
    · subst h; simp [dinsert, dlookup]
    · simp [dinsert, dlookup, h, Ne.symm h]
  | cons p rest ih =>
    by_cases hp : p.1 = k
    · by_cases h : k' = k
      · subst h; simp [dinsert, dlookup, hp]
      · have hp' : p.1 ≠ k' := by rw [hp]; exact Ne.symm h
        simp [dinsert, dlookup, hp, h, Ne.symm h, hp']
    · by_cases h : k' = k
      · subst h; simp [dinsert, dlookup, hp, ih]
      · simp [dinsert, dlookup, hp, h, ih]

/-- A key is absent from a dict exactly when lookup returns `none`. -/
theorem dlookup_eq_none_iff {V : Type} (d : Dict V) (k : String) :
    dlookup d k = none ↔ k ∉ dkeys d := by
  induction d with
  | nil => simp [dlookup, dkeys]
  | cons p rest ih =>
    by_cases hp : p.1 = k
    · simp [dlookup, dkeys, hp]
    · simp only [dlookup, if_neg hp, dkeys, List.map_cons, List.mem_cons,
        not_or]
      rw [ih]
      simp only [dkeys]
      exact ⟨fun hk => ⟨fun hh => hp hh.symm, hk⟩, fun hk => hk.2⟩

/-- Assignment to a fresh key appends the binding at the end. -/
theorem dinsert_of_not_mem {V : Type} (d : Dict V) (k : String) (v : V)
    (h : k ∉ dkeys d) : dinsert d k v = d ++ [(k, v)] := by
  induction d with
  | nil => simp [dinsert]
  | cons p rest ih =>
    simp only [dkeys, List.map_cons, List.mem_cons, not_or] at h
    simp [dinsert, Ne.symm h.1, ih (by simpa [dkeys] using h.2)]

/-- Keys of an append. -/
theorem dkeys_append {V : Type} (d e : Dict V) :
    dkeys (d ++ e) = dkeys d ++ dkeys e := by
  simp [dkeys]

/-- Lookup in an append: the left dict wins. -/
theorem dlookup_append {V : Type} (d e : Dict V) (k : String) :
    dlookup (d ++ e) k = oor (dlookup d k) (dlookup e k) := by
  induction d with
  | nil => simp [dlookup, oor]
  | cons p rest ih =>
    by_cases hp : p.1 = k <;> simp [dlookup, hp, oor, ih]

/-- In a dict with distinct keys, a binding determines the lookup. -/
theorem dlookup_of_mem_nodup {V : Type} (d : Dict V) (k : String) (v : V)
    (hnd : (dkeys d).Nodup) (hm : (k, v) ∈ d) : dlookup d k = some v := by
  induction d with
  | nil => simp at hm
  | cons p rest ih =>
    simp only [dkeys, List.map_cons, List.nodup_cons] at hnd
    rcases List.mem_cons.mp hm with h | h
    · subst h; simp [dlookup]
    · have hk : k ∈ List.map Prod.fst rest := List.mem_map_of_mem Prod.fst h
      have hp : p.1 ≠ k := fun hh => hnd.1 (hh ▸ hk)
      simp [dlookup, hp, ih (by simpa [dkeys] using hnd.2) h]

/-- A successful lookup exhibits a binding. -/
theorem mem_of_dlookup {V : Type} (d : Dict V) (k : String) (v : V)
    (h : dlookup d k = some v) : (k, v) ∈ d := by
  induction d with
  | nil => simp [dlookup] at h
  | cons p rest ih =>
    by_cases hp : p.1 = k
    · simp only [dlookup, if_pos hp] at h
      injection h with hv
      have hpe : p = (k, v) := by
        obtain ⟨p1, p2⟩ := p
        simp only at hp hv
        simp [hp, hv]
      rw [← hpe]
      exact List.mem_cons_self p rest
    · simp only [dlookup, if_neg hp] at h
      exact List.mem_cons_of_mem _ (ih h)

/-- Updating with a dict of fresh, distinct keys appends it. -/
theorem dupdate_eq_append {V : Type} (e d : Dict V)
    (hnd : (dkeys e).Nodup) (hdisj : ∀ k ∈ dkeys e, k ∉ dkeys d) :
    dupdate d e = d ++ e := by
  induction e generalizing d with
  | nil => simp [dupdate]
  | cons p rest ih =>
    simp only [dkeys, List.map_cons, List.nodup_cons] at hnd
    have hfresh : p.1 ∉ dkeys d := hdisj p.1 (by simp [dkeys])
    have step : dupdate d (p :: rest) = dupdate (d ++ [p]) rest := by
      simp only [dupdate, List.foldl_cons]
      rw [dinsert_of_not_mem d p.1 p.2 hfresh]
    have hnd2 : (dkeys rest).Nodup := by simpa [dkeys] using hnd.2
    have hdisj2 : ∀ k ∈ dkeys rest, k ∉ dkeys (d ++ [p]) := by
      intro k hk
      rw [dkeys_append]
      simp only [List.mem_append, not_or]
      refine ⟨hdisj k ?_, ?_⟩
      · simp only [dkeys, List.map_cons]
        exact List.mem_cons_of_mem _ (by simpa [dkeys] using hk)
      · simp only [dkeys, List.map_cons, List.map_nil, List.mem_singleton]
        intro hh
        exact hnd.1 (hh ▸ (by simpa [dkeys] using hk))
    rw [step, ih (d ++ [p]) hnd2 hdisj2, List.append_assoc]
    simp

/-- Lookup is invariant under permutation of a dict with distinct keys. -/
theorem dlookup_perm_nodup {V : Type} (d d' : Dict V)
    (hperm : d.Perm d') (hnd : (dkeys d).Nodup) (k : String) :
    dlookup d k = dlookup d' k := by
  have hmap := hperm.map Prod.fst
  have hnd' : (dkeys d').Nodup := by
    have h0 : (d.map Prod.fst).Nodup := by simpa [dkeys] using hnd
    simpa [dkeys] using hmap.nodup_iff.mp h0
  cases h : dlookup d k with
  | some v =>
    exact (dlookup_of_mem_nodup d' k v hnd'
      (hperm.mem_iff.mp (mem_of_dlookup d k v h))).symm
  | none =>
    have hk : k ∉ dkeys d := (dlookup_eq_none_iff d k).mp h
    have hk' : k ∉ dkeys d' := by
      intro hc
      exact hk (by simpa [dkeys] using hmap.mem_iff.mpr (by simpa [dkeys] using hc))
    exact ((dlookup_eq_none_iff d' k).mpr hk').symm

/-- Bucket list cons unfolding. -/
theorem gjoin_cons (b : String × Dict CacheEntry)
    (org : Dict (Dict CacheEntry)) : gjoin (b :: org) = b.2 ++ gjoin org := by
  simp [gjoin]

/-- A member of a looked-up bucket is a member of the bucket
concatenation. -/
theorem mem_gjoin_of_dlookup (org : Dict (Dict CacheEntry)) (f : String)
    (b : Dict CacheEntry) (x : String × CacheEntry)
    (hb : dlookup org f = some b) (hx : x ∈ b) : x ∈ gjoin org := by
  have hm : (f, b) ∈ org := mem_of_dlookup org f b hb
  have hb2 : b ∈ org.map Prod.snd := List.mem_map_of_mem Prod.snd hm
  exact List.mem_flatten.mpr ⟨b, hb2, hx⟩

/-- Appending one binding to an existing bucket permutes the
concatenation by appending that binding. -/
theorem gjoin_dinsert_found (org : Dict (Dict CacheEntry)) (f : String)
    (b : Dict CacheEntry) (x : String × CacheEntry)
    (hb : dlookup org f = some b) :
    (gjoin (dinsert org f (b ++ [x]))).Perm (gjoin org ++ [x]) := by
  induction org with
  | nil => simp [dlookup] at hb
  | cons p rest ih =>
    by_cases hp : p.1 = f
    · simp only [dlookup, if_pos hp] at hb
      injection hb with hb2
      simp only [dinsert, if_pos hp, gjoin_cons]
      subst hb2
      have h1 : (p.2 ++ [x]) ++ gjoin rest = p.2 ++ ([x] ++ gjoin rest) := by
        rw [List.append_assoc]
      have h2 : ([x] ++ gjoin rest).Perm (gjoin rest ++ [x]) :=
        List.perm_append_comm
      have h3 := h2.append_left p.2
      rw [← List.append_assoc, ← List.append_assoc] at h3
      exact h3
    · simp only [dlookup, if_neg hp] at hb
      simp only [dinsert, if_neg hp, gjoin_cons]
      have h1 : (p.2 ++ gjoin (dinsert rest f (b ++ [x]))).Perm
          (p.2 ++ (gjoin rest ++ [x])) := (ih hb).append_left p.2
      rw [← List.append_assoc] at h1
      exact h1

/-- Inserting a new bucket appends its contents to the concatenation. -/
theorem gjoin_dinsert_new (org : Dict (Dict CacheEntry)) (f : String)
    (bNew : Dict CacheEntry) (hf : f ∉ dkeys org) :
    gjoin (dinsert org f bNew) = gjoin org ++ bNew := by
  rw [dinsert_of_not_mem org f bNew hf]
  simp [gjoin]

/-- Folding the grouping step over entries with fresh, distinct keys
appends them (up to bucket placement) to the concatenation. -/
theorem org_fold (M : Dict CacheEntry) :
    ∀ (org : Dict (Dict CacheEntry)), (dkeys M).Nodup →
    (∀ k ∈ dkeys M, k ∉ dkeys (gjoin org)) →
    (gjoin (M.foldl orgStep org)).Perm (gjoin org ++ M) := by
  induction M with
  | nil => intro org _ _; simp
  | cons p M' ih =>
    intro org hnd hfresh
    obtain ⟨pk, pv⟩ := p
    simp only [dkeys, List.map_cons, List.nodup_cons] at hnd
    have hp1 : pk ∉ dkeys (gjoin org) := hfresh pk (by simp [dkeys])
    have hperm : (gjoin (orgStep org (pk, pv))).Perm (gjoin org ++ [(pk, pv)]) := by
      cases hb : dlookup org (pv.folder.getD "root") with
      | some b =>
        have hkb : pk ∉ dkeys b := by
          intro hc
          simp only [dkeys, List.mem_map] at hc
          obtain ⟨x, hxb, hxk⟩ := hc
          exact hp1 (by
            simp only [dkeys, List.mem_map]
            exact ⟨x, mem_gjoin_of_dlookup org _ b x hb hxb, hxk⟩)
        have hstep : orgStep org (pk, pv) =
            dinsert org (pv.folder.getD "root") (b ++ [(pk, pv)]) := by
          simp only [orgStep, hb, Option.getD_some]
          rw [dinsert_of_not_mem b pk pv hkb]
        rw [hstep]
        exact gjoin_dinsert_found org _ b (pk, pv) hb
      | none =>
        have hf : (pv.folder.getD "root") ∉ dkeys org :=
          (dlookup_eq_none_iff org _).mp hb
        have hstep : orgStep org (pk, pv) =
            dinsert org (pv.folder.getD "root") [(pk, pv)] := by
          simp [orgStep, hb, dinsert]
        rw [hstep, gjoin_dinsert_new org _ [(pk, pv)] hf]
    have hfresh2 : ∀ k ∈ dkeys M', k ∉ dkeys (gjoin (orgStep org (pk, pv))) := by
      intro k hk hc
      have hmapperm := hperm.map Prod.fst
      have hkin : k ∈ dkeys (gjoin org) ++ [pk] := by
        have hmem := hmapperm.mem_iff.mp (by simpa [dkeys] using hc)
        simpa [dkeys] using hmem
      rcases List.mem_append.mp hkin with h | h
      · refine hfresh k ?_ h
        simp only [dkeys, List.map_cons, List.mem_cons]
        exact Or.inr (by simpa [dkeys] using hk)
      · simp only [List.mem_singleton] at h
        exact hnd.1 (h ▸ (by simpa [dkeys] using hk))
    have hstep0 : gjoin (List.foldl orgStep org ((pk, pv) :: M')) =
        gjoin (List.foldl orgStep (orgStep org (pk, pv)) M') := by
      rw [List.foldl_cons]
    have hmain := (ih (orgStep org (pk, pv)) hnd.2 hfresh2).trans
      (hperm.append_right M')
    rw [hstep0]
    have hfin : (gjoin org ++ [(pk, pv)]) ++ M' = gjoin org ++ ((pk, pv) :: M') := by
      rw [List.append_assoc, List.singleton_append]
    rw [hfin] at hmain
    exact hmain

/-- The bucket concatenation of the grouped entries is a permutation of
the original flat mapping. -/
theorem organize_gjoin_perm (M : Dict CacheEntry) (hnd : (dkeys M).Nodup) :
    (gjoin (organize M)).Perm M := by
  have h := org_fold M [] hnd (by intro k _ hc; simp [gjoin, dkeys] at hc)
  simpa [gjoin] using h

/-- With globally distinct keys, the flatten loop of `load_lock_file`
returns exactly the bucket concatenation. -/
theorem flattenBuckets_aux (org : Dict (Dict CacheEntry)) :
    ∀ (acc : Dict CacheEntry), (dkeys (acc ++ gjoin org)).Nodup →
    org.foldl (fun a b => dupdate a b.2) acc = acc ++ gjoin org := by
  induction org with
  | nil => intro acc _; simp [gjoin]
  | cons b rest ih =>
    intro acc hnd
    have hshape : acc ++ gjoin (b :: rest) = (acc ++ b.2) ++ gjoin rest := by
      rw [gjoin_cons, List.append_assoc]
    rw [hshape] at hnd
    have hnd1 : (dkeys (acc ++ b.2)).Nodup := by
      rw [dkeys_append, List.nodup_append] at hnd
      rw [dkeys_append] at hnd
      rw [dkeys_append]
      rw [List.nodup_append] at hnd
      rw [List.nodup_append]
      exact ⟨hnd.1.1, hnd.1.2.1, hnd.1.2.2⟩
    have hstep : dupdate acc b.2 = acc ++ b.2 := by
      have h2 := hnd1
      rw [dkeys_append, List.nodup_append] at h2
      exact dupdate_eq_append b.2 acc h2.2.1 (fun k hk hkacc => h2.2.2 hkacc hk)
    rw [List.foldl_cons, hstep, gjoin_cons, ← List.append_assoc]
    exact ih (acc ++ b.2) hnd

/-- With globally distinct keys, flattening equals concatenation. -/
theorem flattenBuckets_eq_gjoin (org : Dict (Dict CacheEntry))
    (hnd : (dkeys (gjoin org)).Nodup) : flattenBuckets org = gjoin org := by
  have h := flattenBuckets_aux org [] (by simpa using hnd)
  simpa [flattenBuckets] using h

/-- Load after save is a permutation of the saved mapping. -/
theorem load_save_perm (M : Dict CacheEntry) (now : String)
    (hnd : (dkeys M).Nodup) :
    (load_lock_file (some (save_doc now M))).Perm M := by
  have hper := organize_gjoin_perm M hnd
  have hnd2 : (dkeys (gjoin (organize M))).Nodup := by
    have hmap := hper.map Prod.fst
    have hM : (M.map Prod.fst).Nodup := by simpa [dkeys] using hnd
    simpa [dkeys] using hmap.nodup_iff.mpr hM
  show (flattenBuckets (organize M)).Perm M
  rw [flattenBuckets_eq_gjoin (organize M) hnd2]
  exact hper

/-- Lookup in the bucket concatenation searches the buckets in order. -/
theorem dlookup_gjoin_findSome (org : Dict (Dict CacheEntry)) (k : String) :
    dlookup (gjoin org) k = org.findSome? (fun b => dlookup b.2 k) := by
  induction org with
  | nil => simp [gjoin, dlookup]
  | cons b rest ih =>
    rw [gjoin_cons, dlookup_append]
    cases hb : dlookup b.2 k <;> simp [oor, hb, ih]

/-- When the skip conditions hold, `process_file` copies the old entry
unchanged, performs no conversion, and logs the skip. -/
theorem process_file_skip_eq (env : Env) (cache : Dict CacheEntry)
    (dirs : List String) (stem : String) (old : CacheEntry)
    (h1 : dlookup cache (fileKey dirs stem) = some old)
    (h2 : env.hashOf (pngPath dirs stem) = old.input_hash)
    (h3 : env.webpExists (webpPath dirs stem) = true) :
    process_file env cache dirs stem =
      ⟨some old, false, ["Skipping [" ++ folderDisplay dirs ++ "] " ++
        (stem ++ ".png") ++ " - already converted and unchanged"]⟩ := by
  simp [process_file, h1, h2, h3]

/-- Every entry that `process_file` writes or keeps has `input_hash`
equal to the fresh hash of the source file (checked on skip, stored on
conversion). -/
theorem process_file_entry_input_hash (env : Env) (cache : Dict CacheEntry)
    (dirs : List String) (stem : String) (e : CacheEntry)
    (h : (process_file env cache dirs stem).entry? = some e) :
    e.input_hash = env.hashOf (pngPath dirs stem) := by
  cases hl : dlookup cache (fileKey dirs stem) with
  | some old =>
    by_cases hc : env.hashOf (pngPath dirs stem) = old.input_hash ∧
        env.webpExists (webpPath dirs stem) = true
    · rw [process_file_skip_eq env cache dirs stem old hl hc.1 hc.2] at h
      simp only at h
      injection h with h2
      rw [← h2]
      exact hc.1.symm
    · cases hr : env.encodeResult (pngPath dirs stem) with
      | ok s =>
        by_cases hs : s = ""
        · simp [process_file, convert_image, hl, hc, hr, hs] at h
        · simp [process_file, convert_image, hl, hc, hr, hs] at h
          rw [← h]
      | error msg =>
        simp [process_file, convert_image, hl, hc, hr] at h
  | none =>
    cases hr : env.encodeResult (pngPath dirs stem) with
    | ok s =>
      by_cases hs : s = ""
      · simp [process_file, convert_image, hl, hr, hs] at h
      · simp [process_file, convert_image, hl, hr, hs] at h
        rw [← h]
    | error msg =>
      simp [process_file, convert_image, hl, hr] at h

/-- When the encoder succeeds with a non-empty hash, `process_file`
always produces an entry (by skipping or by converting). -/
theorem process_file_entry_isSome (env : Env) (cache : Dict CacheEntry)
    (dirs : List String) (stem : String)
    (hok : ∃ s, env.encodeResult (pngPath dirs stem) = .ok s ∧ s ≠ "") :
    ((process_file env cache dirs stem).entry?).isSome = true := by
  obtain ⟨s, hs, hne⟩ := hok
  simp only [process_file, convert_image]
  cases hl : dlookup cache (fileKey dirs stem) with
  | some old =>
    by_cases hc : env.hashOf (pngPath dirs stem) = old.input_hash ∧
        env.webpExists (webpPath dirs stem) = true
    · simp [hc]
    · simp [hc, hs, hne]
  | none => simp [hs, hne]

/-- The result of `process_file` depends on the environment only through
the hash, existence and encoder values at this file's paths. -/
theorem process_file_congr (env env' : Env) (cache : Dict CacheEntry)
    (dirs : List String) (stem : String)
    (hh : env'.hashOf = env.hashOf) (hw : env'.webpExists = env.webpExists)
    (hn : env'.now = env.now)
    (he : env'.encodeResult (pngPath dirs stem) =
      env.encodeResult (pngPath dirs stem)) :
    process_file env' cache dirs stem = process_file env cache dirs stem := by
  simp only [process_file, convert_image, hh, hw, hn, he]

/-- Folding the per-file insertion over files with fresh, distinct keys
appends their entries in order. -/
theorem levelHashes_aux (env : Env) (cache : Dict CacheEntry)
    (dirs : List String) (fs : List String) :
    ∀ (acc : Dict CacheEntry),
    (∀ stem ∈ fs, fileKey dirs stem ∉ dkeys acc) →
    ((fs.map (fileKey dirs)).Nodup) →
    List.foldl (fun acc stem =>
      match (process_file env cache dirs stem).entry? with
      | some e => dinsert acc (fileKey dirs stem) e
      | none => acc) acc fs
    = acc ++ fs.filterMap (fun stem => fileEntryPair env cache (dirs, stem)) := by
  induction fs with
  | nil => intro acc _ _; simp
  | cons s rest ih =>
    intro acc hfresh hnd
    simp only [List.map_cons, List.nodup_cons] at hnd
    rw [List.foldl_cons]
    cases hpe : (process_file env cache dirs s).entry? with
    | some e =>
      have hk : fileKey dirs s ∉ dkeys acc := hfresh s (by simp)
      simp only [hpe]
      rw [dinsert_of_not_mem acc _ e hk]
      rw [ih (acc ++ [(fileKey dirs s, e)])
        (by
          intro stem hstem
          rw [dkeys_append]
          simp only [List.mem_append, not_or]
          refine ⟨hfresh stem (List.mem_cons_of_mem s hstem), ?_⟩
          simp only [dkeys, List.map_cons, List.map_nil, List.mem_singleton]
          intro hh
          exact hnd.1 (hh ▸ List.mem_map_of_mem (fileKey dirs) hstem))
        hnd.2]
      rw [List.append_assoc]
      have hfep : fileEntryPair env cache (dirs, s) = some (fileKey dirs s, e) := by
        simp [fileEntryPair, hpe]
      rw [List.filterMap_cons, hfep]
      simp
    | none =>
      simp only [hpe]
      rw [ih acc (fun stem hstem => hfresh stem (List.mem_cons_of_mem s hstem))
        hnd.2]
      have hfep : fileEntryPair env cache (dirs, s) = none := by
        simp [fileEntryPair, hpe]
      rw [List.filterMap_cons, hfep]

/-- The level entries of one directory, in canonical form. -/
theorem levelHashes_eq (env : Env) (cache : Dict CacheEntry)
    (dirs : List String) (fs : List String)
    (hnd : (fs.map (fileKey dirs)).Nodup) :
    levelHashes env cache dirs fs =
      fs.filterMap (fun stem => fileEntryPair env cache (dirs, stem)) := by
  have h := levelHashes_aux env cache dirs fs [] (by simp [dkeys]) hnd
  simpa [levelHashes] using h

/-- Counting conversions over one directory level. -/
theorem levelConversions_aux (env : Env) (cache : Dict CacheEntry)
    (dirs : List String) (fs : List String) :
    ∀ (n : Nat),
    List.foldl (fun n stem =>
      if (process_file env cache dirs stem).converted then n + 1 else n) n fs
    = n + fs.countP (fun stem => (process_file env cache dirs stem).converted) := by
  induction fs with
  | nil => intro n; simp
  | cons s rest ih =>
    intro n
    rw [List.foldl_cons, List.countP_cons]
    by_cases hc : (process_file env cache dirs s).converted = true
    · rw [if_pos hc, if_pos hc, ih (n + 1)]
      omega
    · rw [if_neg hc, if_neg hc, ih n]
      omega

/-- The conversion count of one level in canonical form. -/
theorem levelConversions_eq (env : Env) (cache : Dict CacheEntry)
    (dirs : List String) (fs : List String) :
    levelConversions env cache dirs fs =
      fs.countP (fun stem => (process_file env cache dirs stem).converted) := by
  have h := levelConversions_aux env cache dirs fs 0
  simpa [levelConversions] using h

/-- Keys of the canonical entry list form a sublist of the file keys. -/
theorem dkeys_fep_sublist (env : Env) (cache : Dict CacheEntry)
    (l : List (List String × String)) :
    (dkeys (l.filterMap (fileEntryPair env cache))).Sublist
      (l.map (fun f => fileKey f.1 f.2)) := by
  induction l with
  | nil => simp [dkeys]
  | cons f rest ih =>
    rw [List.filterMap_cons, List.map_cons]
    cases h : fileEntryPair env cache f with
    | none => exact ih.cons _
    | some pr =>
      have hk : pr.1 = fileKey f.1 f.2 := by
        simp only [fileEntryPair] at h
        obtain ⟨e, _, hfe⟩ := Option.map_eq_some'.mp h
        rw [← hfe]
      simp only [dkeys, List.map_cons]
      rw [hk]
      exact ih.cons₂ _

mutual
theorem pd_hashes_canonical (env : Env) (cache : Dict CacheEntry) :
    ∀ (dirs : List String) (t : InputTree), (subtreeKeys dirs t).Nodup →
    (process_directory env cache dirs t).hashes =
      (treeFiles dirs t).filterMap (fileEntryPair env cache)
  | dirs, .node fs subs => by
    intro hnd
    have hnd2 : ((fs.map (fileKey dirs)) ++
        ((forestFiles dirs subs).map fun f => fileKey f.1 f.2)).Nodup := by
      simpa [subtreeKeys, treeFiles, List.map_append, List.map_map,
        Function.comp] using hnd
    have hndFs : (fs.map (fileKey dirs)).Nodup :=
      (List.nodup_append.mp hnd2).1
    simp only [process_directory]
    rw [levelHashes_eq env cache dirs fs hndFs]
    have hbase_eq : fs.filterMap (fun stem => fileEntryPair env cache (dirs, stem)) =
        (fs.map (fun stem => (dirs, stem))).filterMap (fileEntryPair env cache) := by
      rw [List.filterMap_map]
      rfl
    have hsubk : (dkeys (fs.filterMap
        (fun stem => fileEntryPair env cache (dirs, stem)))).Sublist
        (fs.map (fileKey dirs)) := by
      rw [hbase_eq]
      have h := dkeys_fep_sublist env cache (fs.map (fun stem => (dirs, stem)))
      simpa [List.map_map, Function.comp] using h
    have hbig : ((dkeys (fs.filterMap
        (fun stem => fileEntryPair env cache (dirs, stem)))) ++
        ((forestFiles dirs subs).map fun f => fileKey f.1 f.2)).Nodup := by
      have hs := hsubk.append
        (List.Sublist.refl ((forestFiles dirs subs).map fun f => fileKey f.1 f.2))
      exact hnd2.sublist hs
    rw [psd_hashes_canonical env cache dirs subs _ hbig]
    rw [hbase_eq]
    simp only [treeFiles, List.filterMap_append]
theorem psd_hashes_canonical (env : Env) (cache : Dict CacheEntry) :
    ∀ (dirs : List String) (subs : Forest) (acc : Dict CacheEntry),
    (dkeys acc ++ ((forestFiles dirs subs).map fun f => fileKey f.1 f.2)).Nodup →
    (processSubdirs env cache dirs subs).foldl (fun a r => dupdate a r.hashes) acc
      = acc ++ (forestFiles dirs subs).filterMap (fileEntryPair env cache)
  | dirs, .nil, acc => by
    intro _
    simp [processSubdirs, forestFiles]
  | dirs, .cons name t rest, acc => by
    intro hnd
    rw [show forestFiles dirs (.cons name t rest) =
      treeFiles (dirs ++ [name]) t ++ forestFiles dirs rest from rfl] at hnd ⊢
    rw [List.map_append, ← List.append_assoc] at hnd
    have hndsplit := List.nodup_append.mp hnd
    have hndacc_tk : ((dkeys acc) ++
        ((treeFiles (dirs ++ [name]) t).map fun f => fileKey f.1 f.2)).Nodup :=
      hndsplit.1
    have hndTk : (subtreeKeys (dirs ++ [name]) t).Nodup :=
      (List.nodup_append.mp hndacc_tk).2.1
    simp only [processSubdirs, List.foldl_cons]
    rw [pd_hashes_canonical env cache (dirs ++ [name]) t hndTk]
    have hcsk : (dkeys ((treeFiles (dirs ++ [name]) t).filterMap
        (fileEntryPair env cache))).Sublist
        ((treeFiles (dirs ++ [name]) t).map fun f => fileKey f.1 f.2) :=
      dkeys_fep_sublist env cache _
    have hdup : dupdate acc ((treeFiles (dirs ++ [name]) t).filterMap
        (fileEntryPair env cache)) = acc ++ (treeFiles (dirs ++ [name]) t).filterMap
        (fileEntryPair env cache) := by
      apply dupdate_eq_append
      · exact ((List.nodup_append.mp hndacc_tk).2.1).sublist hcsk
      · intro k hk hkacc
        have hk2 : k ∈ (treeFiles (dirs ++ [name]) t).map fun f => fileKey f.1 f.2 :=
          hcsk.subset hk
        exact (List.nodup_append.mp hndacc_tk).2.2 hkacc hk2
    rw [hdup]
    have hbig2 : ((dkeys (acc ++ (treeFiles (dirs ++ [name]) t).filterMap
        (fileEntryPair env cache))) ++
        ((forestFiles dirs rest).map fun f => fileKey f.1 f.2)).Nodup := by
      rw [dkeys_append]
      have hs := ((List.Sublist.refl (dkeys acc)).append hcsk).append
        (List.Sublist.refl ((forestFiles dirs rest).map fun f => fileKey f.1 f.2))
      exact hnd.sublist hs
    rw [psd_hashes_canonical env cache dirs rest _ hbig2]
    rw [List.filterMap_append, List.append_assoc]
end

mutual
theorem pd_conversions_canonical (env : Env) (cache : Dict CacheEntry) :
    ∀ (dirs : List String) (t : InputTree),
    (process_directory env cache dirs t).conversions =
      (treeFiles dirs t).countP (fun f => (process_file env cache f.1 f.2).converted)
  | dirs, .node fs subs => by
    simp only [process_directory]
    rw [levelConversions_eq, psd_conversions_canonical env cache dirs subs _]
    simp only [treeFiles, List.countP_append, List.countP_map]
    rfl
theorem psd_conversions_canonical (env : Env) (cache : Dict CacheEntry) :
    ∀ (dirs : List String) (subs : Forest) (n : Nat),
    (processSubdirs env cache dirs subs).foldl (fun n r => n + r.conversions) n
      = n + (forestFiles dirs subs).countP
        (fun f => (process_file env cache f.1 f.2).converted)
  | dirs, .nil, n => by simp [processSubdirs, forestFiles]
  | dirs, .cons name t rest, n => by
    simp only [processSubdirs, List.foldl_cons]
    rw [pd_conversions_canonical env cache (dirs ++ [name]) t,
      psd_conversions_canonical env cache dirs rest _]
    rw [show forestFiles dirs (.cons name t rest) =
      treeFiles (dirs ++ [name]) t ++ forestFiles dirs rest from rfl]
    rw [List.countP_append]
    omega
end

mutual
theorem pd_trace_mkdir (env : Env) (cache : Dict CacheEntry) :
    ∀ (dirs : List String) (t : InputTree) (d : List String),
    d ∈ treeDirs dirs t →
    TraceOp.mkdir d ∈ (process_directory env cache dirs t).trace
  | dirs, .node fs subs, d => by
    intro hd
    simp only [treeDirs, List.mem_cons] at hd
    simp only [process_directory]
    rcases hd with h | h
    · subst h
      exact List.mem_cons_self _ _
    · obtain ⟨r, hr, hmem⟩ := psd_trace_mkdir env cache dirs subs d h
      refine List.mem_cons_of_mem _ (List.mem_append.mpr (Or.inr ?_))
      exact List.mem_flatten.mpr ⟨r.trace, List.mem_map_of_mem DirResult.trace hr, hmem⟩
theorem psd_trace_mkdir (env : Env) (cache : Dict CacheEntry) :
    ∀ (dirs : List String) (subs : Forest) (d : List String),
    d ∈ forestDirs dirs subs →
    ∃ r ∈ processSubdirs env cache dirs subs, TraceOp.mkdir d ∈ r.trace
  | dirs, .nil, d => by simp [forestDirs]
  | dirs, .cons name t rest, d => by
    intro hd
    simp only [forestDirs, List.mem_append] at hd
    simp only [processSubdirs]
    rcases hd with h | h
    · exact ⟨process_directory env cache (dirs ++ [name]) t,
        List.mem_cons_self _ _, pd_trace_mkdir env cache (dirs ++ [name]) t d h⟩
    · obtain ⟨r, hr, hmem⟩ := psd_trace_mkdir env cache dirs rest d h
      exact ⟨r, List.mem_cons_of_mem _ hr, hmem⟩
end

/-- A `filterMap` that never drops an element is a `map`. -/
theorem filterMap_eq_map_of_forall_some {α β : Type} (l : List α)
    (g : α → Option β) (m : α → β) (h : ∀ a ∈ l, g a = some (m a)) :
    l.filterMap g = l.map m := by
  induction l with
  | nil => simp
  | cons a rest ih =>
    rw [List.filterMap_cons, h a (List.mem_cons_self a rest), List.map_cons,
      ih (fun b hb => h b (List.mem_cons_of_mem a hb))]

/-- Lookup of a keyed map list at a member's key, under distinct keys. -/
theorem dlookup_map_key {α V : Type} (l : List α) (kf : α → String)
    (vf : α → V) (hnd : (l.map kf).Nodup) (f : α) (hf : f ∈ l) :
    dlookup (l.map (fun a => (kf a, vf a))) (kf f) = some (vf f) := by
  apply dlookup_of_mem_nodup
  · simpa [dkeys, List.map_map, Function.comp] using hnd
  · exact List.mem_map_of_mem _ hf

/-- Lookup into a keyed `filterMap` only depends on the values at elements
carrying the looked-up key. -/
theorem dlookup_filterMap_pairs_congr {α V : Type} (l : List α)
    (kf : α → String) (g g' : α → Option V) (k : String)
    (h : ∀ a ∈ l, kf a = k → g' a = g a) :
    dlookup (l.filterMap (fun a => (g a).map (fun v => (kf a, v)))) k
      = dlookup (l.filterMap (fun a => (g' a).map (fun v => (kf a, v)))) k := by
  induction l with
  | nil => simp
  | cons a rest ih =>
    have ihr := ih (fun b hb hbk => h b (List.mem_cons_of_mem a hb) hbk)
    rw [List.filterMap_cons, List.filterMap_cons]
    by_cases hk : kf a = k
    · rw [h a (List.mem_cons_self a rest) hk]
      cases hg : g a with
      | none => simpa using ihr
      | some v => simp [dlookup, hk]
    · cases hg : g a <;> cases hg' : g' a <;> simp [dlookup, hk, ihr]

/-- Lookup into a keyed `filterMap` is `none` when every element carrying
the looked-up key is dropped. -/
theorem dlookup_filterMap_pairs_none {α V : Type} (l : List α)
    (kf : α → String) (g : α → Option V) (k : String)
    (h : ∀ a ∈ l, kf a = k → g a = none) :
    dlookup (l.filterMap (fun a => (g a).map (fun v => (kf a, v)))) k = none := by
  induction l with
  | nil => simp [dlookup]
  | cons a rest ih =>
    have ihr := ih (fun b hb hbk => h b (List.mem_cons_of_mem a hb) hbk)
    rw [List.filterMap_cons]
    by_cases hk : kf a = k
    · rw [h a (List.mem_cons_self a rest) hk]
      simpa using ihr
    · cases hg : g a <;> simp [dlookup, hk, ihr]

/-- C2: a file is skipped (no conversion performed) iff its key is cached
with a stored `input_hash` equal to the freshly computed hash of the
current source file and the target artifact exists on disk; on a skip the
old entry is copied unchanged into the new cache. Either condition
failing (or the key being absent) makes `process_file` reconvert. -/
theorem process_file_skip_iff (env : Env) (cache : Dict CacheEntry)
    (dirs : List String) (stem : String) :
    ((process_file env cache dirs stem).converted = false ↔
      ∃ old, dlookup cache (fileKey dirs stem) = some old ∧
        env.hashOf (pngPath dirs stem) = old.input_hash ∧
        env.webpExists (webpPath dirs stem) = true) ∧
    ((process_file env cache dirs stem).converted = false →
      (process_file env cache dirs stem).entry? =
        dlookup cache (fileKey dirs stem)) := by
  cases hl : dlookup cache (fileKey dirs stem) with
  | some old =>
    by_cases hc : env.hashOf (pngPath dirs stem) = old.input_hash ∧
        env.webpExists (webpPath dirs stem) = true
    · rw [process_file_skip_eq env cache dirs stem old hl hc.1 hc.2]
      exact ⟨⟨fun _ => ⟨old, rfl, hc.1, hc.2⟩, fun _ => rfl⟩, fun _ => rfl⟩
    · have hconv : (process_file env cache dirs stem).converted = true := by
        cases hr : env.encodeResult (pngPath dirs stem) with
        | ok s =>
          by_cases hs : s = "" <;>
            simp [process_file, convert_image, hl, hc, hr, hs]
        | error m => simp [process_file, convert_image, hl, hc, hr]
      constructor
      · constructor
        · intro hfalse
          rw [hconv] at hfalse
          simp at hfalse
        · rintro ⟨old', hold', h1, h2⟩
          injection hold' with he
          subst he
          exact absurd ⟨h1, h2⟩ hc
      · intro hfalse
        rw [hconv] at hfalse
        simp at hfalse
  | none =>
    have hconv : (process_file env cache dirs stem).converted = true := by
      cases hr : env.encodeResult (pngPath dirs stem) with
      | ok s =>
        by_cases hs : s = "" <;>
          simp [process_file, convert_image, hl, hr, hs]
      | error m => simp [process_file, convert_image, hl, hr]
    constructor
    · constructor
      · intro hfalse
        rw [hconv] at hfalse
        simp at hfalse
      · rintro ⟨old', hold', _, _⟩
        simp at hold'
    · intro hfalse
      rw [hconv] at hfalse
      simp at hfalse

/-- Witness for C2: with an up-to-date cache entry and an existing
artifact, `logo.png` is skipped and the old entry is copied unchanged. -/
theorem process_file_skip_iff_witness :
    (process_file envA cacheA [] "logo").entry? =
      dlookup cacheA (fileKey [] "logo") :=
  (process_file_skip_iff envA cacheA [] "logo").2 (by decide)

/-- C3 counterexample: the very first operation of `save_lock_file` is a
truncating open of the cache path itself, so a crash right after it
leaves a truncated cache file, and the operation sequence contains no
rename (no temp-file-then-rename protocol). -/
theorem save_no_temp_rename_counterexample :
    applyOps (fun _ => FileContent.complete (save_doc "T0" []))
      [FsOp.openTrunc "out/conversion.lock"] "out/conversion.lock" =
      FileContent.truncated ∧
    ([FsOp.openTrunc "out/conversion.lock"] <+:
      save_lock_file_ops "out/conversion.lock" "T1" []) ∧
    (save_lock_file_ops "out/conversion.lock" "T1" []).all
      (fun op => match op with | .rename _ _ => false | _ => true) = true := by
  refine ⟨by decide, ⟨[FsOp.write "out/conversion.lock" (save_doc "T1" [])], rfl⟩, rfl⟩

/-- C3 (amended): `save_lock_file` writes the document directly to the
cache path - one truncating open followed by the dump - with no temporary
file and no rename; the completed sequence leaves the full document, but
the crash point after the open leaves a truncated cache file. -/
theorem save_direct_write (lockPath : String) (now : String)
    (hashes : Dict CacheEntry) (st : String → FileContent) :
    applyOps st (save_lock_file_ops lockPath now hashes) lockPath =
      FileContent.complete (save_doc now hashes) ∧
    applyOps st [FsOp.openTrunc lockPath] lockPath = FileContent.truncated ∧
    ([FsOp.openTrunc lockPath] <+: save_lock_file_ops lockPath now hashes) ∧
    (save_lock_file_ops lockPath now hashes).all
      (fun op => match op with | .rename _ _ => false | _ => true) = true := by
  refine ⟨?_, ?_, ⟨[FsOp.write lockPath (save_doc now hashes)], rfl⟩, rfl⟩
  · simp [applyOps, applyOp, save_lock_file_ops]
  · simp [applyOps, applyOp]

/-- C4 counterexample: a converted top-level file receives the folder
string `"."` (`str(Path(".").parent)` semantics), not `"root"`; the
`"root"` label appears only in log messages. -/
theorem folder_root_counterexample :
    (process_file envB [] [] "logo").converted = true ∧
    ((process_file envB [] [] "logo").entry?).map CacheEntry.folder =
      some (some ".") ∧
    ((process_file envB [] [] "logo").entry?).map CacheEntry.folder ≠
      some (some "root") := by
  decide

/-- C4 (amended): every entry written by a conversion stores
`folder = str(relative_path.parent)`, the parent directory relative to
the input root, which is the string `"."` - not `"root"` - for a
top-level file. -/
theorem folder_field_parent_dir :
    (∀ (env : Env) (cache : Dict CacheEntry) (dirs : List String)
      (stem : String) (e : CacheEntry),
      (process_file env cache dirs stem).converted = true →
      (process_file env cache dirs stem).entry? = some e →
      e.folder = some (parentStr dirs)) ∧
    parentStr [] = "." := by
  constructor
  · intro env cache dirs stem e hcv he
    cases hl : dlookup cache (fileKey dirs stem) with
    | some old =>
      by_cases hc : env.hashOf (pngPath dirs stem) = old.input_hash ∧
          env.webpExists (webpPath dirs stem) = true
      · rw [process_file_skip_eq env cache dirs stem old hl hc.1 hc.2] at hcv
        simp at hcv
      · cases hr : env.encodeResult (pngPath dirs stem) with
        | ok s =>
          by_cases hs : s = ""
          · simp [process_file, convert_image, hl, hc, hr, hs] at he
          · simp [process_file, convert_image, hl, hc, hr, hs] at he
            rw [← he]
        | error m => simp [process_file, convert_image, hl, hc, hr] at he
    | none =>
      cases hr : env.encodeResult (pngPath dirs stem) with
      | ok s =>
        by_cases hs : s = ""
        · simp [process_file, convert_image, hl, hr, hs] at he
        · simp [process_file, convert_image, hl, hr, hs] at he
          rw [← he]
      | error m => simp [process_file, convert_image, hl, hr] at he
  · rfl

/-- Witness for C4: the freshly converted top-level `logo.png` entry
stores the parent-directory string, which is `"."` at the root. -/
theorem folder_field_parent_dir_witness :
    (⟨"h1", "h2", some ".", "logo.png", "logo.webp",
      "2024-01-01T00:00:00"⟩ : CacheEntry).folder = some (parentStr []) :=
  folder_field_parent_dir.1 envB [] [] "logo" _ (by decide) (by decide)

/-- C5: each `load_lock_file`/`save_lock_file` call allocates a fresh
`asyncio.Lock()`, so distinct calls never share an exclusion primitive,
and a schedule in which two calls to the cache file run their critical
sections simultaneously is admissible for this lock assignment: the
per-call lock provides no cross-call mutual exclusion. -/
theorem lock_per_call_no_mutual_exclusion :
    (∀ i j : Nat, i ≠ j → lockFileLock i ≠ lockFileLock j) ∧
    lockAdmissible [0, 1] lockFileLock (fun _ => ⟨0, 1⟩) ∧
    overlaps ⟨0, 1⟩ ⟨0, 1⟩ := by
  refine ⟨fun i j h => h, ?_, by decide⟩
  intro i _ j _ hij hlock
  exact absurd hlock hij

/-- Witness for C5: the two concurrent calls use distinct locks. -/
theorem lock_per_call_no_mutual_exclusion_witness :
    lockFileLock 0 ≠ lockFileLock 1 :=
  lock_per_call_no_mutual_exclusion.1 0 1 (by decide)

/-- C6: `load_lock_file` returns the empty mapping when the cache file is
absent; a document without a `files` key is returned whole as the flat
mapping; a document with a `files` key is flattened into a single
mapping keyed by relative path, searching the folder buckets in order
(folder grouping discarded). -/
theorem load_lock_file_spec :
    load_lock_file none = [] ∧
    (∀ d : Dict CacheEntry, load_lock_file (some (.flat d)) = d) ∧
    (∀ (m : Metadata) (fs : Dict (Dict CacheEntry)) (k : String),
      (dkeys (gjoin fs)).Nodup →
      dlookup (load_lock_file (some (.nested m fs))) k =
        fs.findSome? (fun b => dlookup b.2 k)) := by
  refine ⟨rfl, fun d => rfl, ?_⟩
  intro m fs k hnd
  show dlookup (flattenBuckets fs) k = _
  rw [flattenBuckets_eq_gjoin fs hnd, dlookup_gjoin_findSome]

/-- Witness for C6: flattening a one-bucket nested document. -/
theorem load_lock_file_spec_witness :
    dlookup (load_lock_file (some (.nested ⟨"T", 1, "1.0"⟩
      [("root", [("x.png", defaultEntry)])]))) "x.png" =
      [("root", [("x.png", defaultEntry)])].findSome?
        (fun b => dlookup b.2 "x.png") :=
  load_lock_file_spec.2.2 ⟨"T", 1, "1.0"⟩
    [("root", [("x.png", defaultEntry)])] "x.png" (by decide)

/-- The all-at-once schedule respects every per-directory semaphore on
`tree6`: each semaphore guards at most five tasks in total. -/
theorem schedAll_admissible :
    semAdmissible (convTasks envB [] [] tree6) schedAll := by
  intro t k hk
  match t with
  | 0 =>
    revert k hk
    decide
  | (n + 1) =>
    have hemp : (convTasks envB [] [] tree6).filter
        (fun j => j.1 == k.1 && activeAt (schedAll j) (n + 1)) = [] := by
      apply List.filter_eq_nil_iff.mpr
      intro j _
      simp only [schedAll, activeAt, Bool.and_eq_true, decide_eq_true_eq]
      rintro ⟨-, -, hlt⟩
      omega
    rw [hemp]
    simp [MAX_CONCURRENT_OPERATIONS]

/-- C1 counterexample: on a tree with five root files and one file in a
subdirectory, the schedule running all six conversions in the same
instant is admissible for the per-directory semaphores the code creates,
yet six encode operations are active at once - more than
`MAX_CONCURRENT_OPERATIONS = 5`. The permit pool is not shared across the
tree. -/
theorem semaphore_shared_pool_counterexample :
    semAdmissible (convTasks envB [] [] tree6) schedAll ∧
    ¬ (runningAt (convTasks envB [] [] tree6) schedAll 0 ≤
      MAX_CONCURRENT_OPERATIONS) :=
  ⟨schedAll_admissible, by decide⟩

/-- C1 (amended): every recursive `process_directory` call creates its
own `asyncio.Semaphore(5)`, used only by that directory's direct files,
so in any admissible schedule at most five conversions of files from any
single directory execute concurrently; the system-wide count is bounded
per directory, not globally. -/
theorem semaphore_per_directory_bound (env : Env) (cache : Dict CacheEntry)
    (dirs : List String) (t : InputTree)
    (sched : List String × String → Span) (d : List String) (time : Nat)
    (h : semAdmissible (convTasks env cache dirs t) sched) :
    ((convTasks env cache dirs t).filter
      (fun j => j.1 == d && activeAt (sched j) time)).length ≤
      MAX_CONCURRENT_OPERATIONS := by
  cases hfil : (convTasks env cache dirs t).filter
      (fun j => j.1 == d && activeAt (sched j) time) with
  | nil => simp [MAX_CONCURRENT_OPERATIONS]
  | cons k rest =>
    have hk : k ∈ (convTasks env cache dirs t).filter
        (fun j => j.1 == d && activeAt (sched j) time) := by
      rw [hfil]
      exact List.mem_cons_self _ _
    have hk2 := List.mem_filter.mp hk
    have hkd : k.1 = d := by
      have hb := hk2.2
      simp only [Bool.and_eq_true] at hb
      exact eq_of_beq hb.1
    subst hkd
    rw [← hfil]
    exact h time k hk2.1

/-- Witness for C1 (amended): the root directory's semaphore keeps its
five files within the bound under the all-at-once schedule. -/
theorem semaphore_per_directory_bound_witness :
    ((convTasks envB [] [] tree6).filter
      (fun j => j.1 == ([] : List String) && activeAt (schedAll j) 0)).length ≤
      MAX_CONCURRENT_OPERATIONS :=
  semaphore_per_directory_bound envB [] [] tree6 schedAll [] 0
    schedAll_admissible

/-- C7: when the encode step of a file raises, `process_file` places no
entry for it in the new cache, logs the cause (the `Error converting`
line with the exception text) and the failure line; the whole-tree result
contains no entry at the failing file's key, and at every other key the
merged mapping is the same as with an environment in which that file's
encode behaves arbitrarily differently - the failure neither aborts nor
alters sibling or ancestor processing. -/
theorem encode_failure_isolated (env env' : Env) (cache : Dict CacheEntry)
    (d0 : List String) (s0 : String) (msg : String)
    (dirs : List String) (t : InputTree)
    (hfail : env.encodeResult (pngPath d0 s0) = .error msg)
    (hconv : (process_file env cache d0 s0).converted = true)
    (hh : env'.hashOf = env.hashOf) (hw : env'.webpExists = env.webpExists)
    (hn : env'.now = env.now)
    (he : ∀ p, p ≠ pngPath d0 s0 →
      env'.encodeResult p = env.encodeResult p)
    (hnd : (subtreeKeys dirs t).Nodup) :
    (process_file env cache d0 s0).entry? = none ∧
    ("Error converting " ++ pathStr (pngPath d0 s0) ++ ": " ++ msg) ∈
      (process_file env cache d0 s0).logs ∧
    ("Failed to convert [" ++ folderDisplay d0 ++ "] " ++ (s0 ++ ".png")) ∈
      (process_file env cache d0 s0).logs ∧
    ((∀ f ∈ treeFiles dirs t, fileKey f.1 f.2 = fileKey d0 s0 → f = (d0, s0)) →
      dlookup (process_directory env cache dirs t).hashes (fileKey d0 s0) = none) ∧
    (∀ k, (∀ f ∈ treeFiles dirs t, fileKey f.1 f.2 = k →
        pngPath f.1 f.2 ≠ pngPath d0 s0) →
      dlookup (process_directory env' cache dirs t).hashes k =
        dlookup (process_directory env cache dirs t).hashes k) := by
  have hres : process_file env cache d0 s0 =
      ⟨none, true, ["Converting [" ++ folderDisplay d0 ++ "] " ++ (s0 ++ ".png"),
        "Error converting " ++ pathStr (pngPath d0 s0) ++ ": " ++ msg,
        "Failed to convert [" ++ folderDisplay d0 ++ "] " ++ (s0 ++ ".png")]⟩ := by
    cases hl : dlookup cache (fileKey d0 s0) with
    | some old =>
      by_cases hc : env.hashOf (pngPath d0 s0) = old.input_hash ∧
          env.webpExists (webpPath d0 s0) = true
      · rw [process_file_skip_eq env cache d0 s0 old hl hc.1 hc.2] at hconv
        simp at hconv
      · simp [process_file, convert_image, hl, hc, hfail]
    | none => simp [process_file, convert_image, hl, hfail]
  refine ⟨by rw [hres], by rw [hres]; simp, by rw [hres]; simp, ?_, ?_⟩
  · intro honly
    rw [pd_hashes_canonical env cache dirs t hnd]
    show dlookup ((treeFiles dirs t).filterMap
      (fun f => ((process_file env cache f.1 f.2).entry?).map
        (fun e => (fileKey f.1 f.2, e)))) (fileKey d0 s0) = none
    apply dlookup_filterMap_pairs_none
    intro f hf hfk
    rw [honly f hf hfk, hres]
  · intro k hk
    rw [pd_hashes_canonical env cache dirs t hnd,
      pd_hashes_canonical env' cache dirs t hnd]
    show dlookup ((treeFiles dirs t).filterMap
        (fun f => ((process_file env' cache f.1 f.2).entry?).map
          (fun e => (fileKey f.1 f.2, e)))) k =
      dlookup ((treeFiles dirs t).filterMap
        (fun f => ((process_file env cache f.1 f.2).entry?).map
          (fun e => (fileKey f.1 f.2, e)))) k
    apply (dlookup_filterMap_pairs_congr (treeFiles dirs t)
      (fun f => fileKey f.1 f.2)
      (fun f => (process_file env cache f.1 f.2).entry?)
      (fun f => (process_file env' cache f.1 f.2).entry?) k ?_).symm
    intro f hf hfk
    show (process_file env' cache f.1 f.2).entry? =
      (process_file env cache f.1 f.2).entry?
    rw [process_file_congr env env' cache f.1 f.2 hh hw hn
      (he (pngPath f.1 f.2) (hk f hf hfk))]

/-- Witness for C7: with the encoder failing on `bad.png`, the sibling
`good.png` gets the same entry as in the run where `bad.png` succeeds. -/
theorem encode_failure_isolated_witness :
    dlookup (process_directory envG [] [] tree7).hashes "good.png" =
      dlookup (process_directory envF [] [] tree7).hashes "good.png" :=
  (encode_failure_isolated envF envG [] [] "bad" "boom" [] tree7
    rfl (by decide) rfl rfl rfl
    (fun p hp => by
      show Except.ok "h2" =
        if p = ["bad.png"] then Except.error "boom" else Except.ok "h2"
      rw [if_neg (fun hc => hp (by rw [hc]; rfl))])
    (by decide)).2.2.2.2 "good.png" (by decide)

/-- C9: running the pipeline a second time on an unchanged input tree
(same content hashes, all run-1 artifacts on disk, every run-1 encode
having succeeded) performs zero conversions - every file is skipped via
its cache entry - and produces exactly the same entry mapping, so the
persisted document differs from run 1's only in the metadata timestamp. -/
theorem second_run_idempotent (env1 env2 : Env) (cache1 : Dict CacheEntry)
    (t : InputTree) (now1 : String)
    (hnd : (subtreeKeys [] t).Nodup)
    (henc : ∀ p : List String, ∃ s, env1.encodeResult p = .ok s ∧ s ≠ "")
    (hhash : env2.hashOf = env1.hashOf)
    (hwebp : ∀ p : List String, env2.webpExists p = true) :
    (process_directory env2 (load_lock_file (some (save_doc now1
        (process_directory env1 cache1 [] t).hashes))) [] t).conversions = 0 ∧
    (process_directory env2 (load_lock_file (some (save_doc now1
        (process_directory env1 cache1 [] t).hashes))) [] t).hashes =
      (process_directory env1 cache1 [] t).hashes ∧
    (∀ now2,
      filesOf (save_doc now2 (process_directory env2 (load_lock_file
          (some (save_doc now1 (process_directory env1 cache1 [] t).hashes)))
          [] t).hashes) =
        filesOf (save_doc now1 (process_directory env1 cache1 [] t).hashes) ∧
      (metadataOf (save_doc now2 (process_directory env2 (load_lock_file
          (some (save_doc now1 (process_directory env1 cache1 [] t).hashes)))
          [] t).hashes)).total_files =
        (metadataOf (save_doc now1
          (process_directory env1 cache1 [] t).hashes)).total_files ∧
      (metadataOf (save_doc now2 (process_directory env2 (load_lock_file
          (some (save_doc now1 (process_directory env1 cache1 [] t).hashes)))
          [] t).hashes)).version =
        (metadataOf (save_doc now1
          (process_directory env1 cache1 [] t).hashes)).version ∧
      (metadataOf (save_doc now2 (process_directory env2 (load_lock_file
          (some (save_doc now1 (process_directory env1 cache1 [] t).hashes)))
          [] t).hashes)).last_update = now2) := by
  have hcan1 : (process_directory env1 cache1 [] t).hashes =
      (treeFiles [] t).filterMap (fileEntryPair env1 cache1) :=
    pd_hashes_canonical env1 cache1 [] t hnd
  have hsome : ∀ f ∈ treeFiles [] t, fileEntryPair env1 cache1 f =
      some (fileKey f.1 f.2,
        ((process_file env1 cache1 f.1 f.2).entry?).getD defaultEntry) := by
    intro f hf
    have hs := process_file_entry_isSome env1 cache1 f.1 f.2 (henc _)
    obtain ⟨e, he⟩ := Option.isSome_iff_exists.mp hs
    simp [fileEntryPair, he]
  have hmapform : (process_directory env1 cache1 [] t).hashes =
      (treeFiles [] t).map (fun f => (fileKey f.1 f.2,
        ((process_file env1 cache1 f.1 f.2).entry?).getD defaultEntry)) := by
    rw [hcan1]
    exact filterMap_eq_map_of_forall_some _ _ _ hsome
  have hndkeys : ((treeFiles [] t).map (fun f => fileKey f.1 f.2)).Nodup := hnd
  have hndh1 : (dkeys (process_directory env1 cache1 [] t).hashes).Nodup := by
    rw [hmapform]
    simpa [dkeys, List.map_map, Function.comp] using hndkeys
  have hperm : (load_lock_file (some (save_doc now1
      (process_directory env1 cache1 [] t).hashes))).Perm
      (process_directory env1 cache1 [] t).hashes :=
    load_save_perm _ now1 hndh1
  have hndc2 : (dkeys (load_lock_file (some (save_doc now1
      (process_directory env1 cache1 [] t).hashes)))).Nodup := by
    have hmap := hperm.map Prod.fst
    have hbase : ((process_directory env1 cache1 [] t).hashes.map Prod.fst).Nodup := by
      simpa [dkeys] using hndh1
    simpa [dkeys] using hmap.nodup_iff.mpr hbase
  have hlook : ∀ f ∈ treeFiles [] t,
      dlookup (load_lock_file (some (save_doc now1
        (process_directory env1 cache1 [] t).hashes))) (fileKey f.1 f.2) =
      some (((process_file env1 cache1 f.1 f.2).entry?).getD defaultEntry) := by
    intro f hf
    rw [dlookup_perm_nodup _ _ hperm hndc2 (fileKey f.1 f.2), hmapform]
    exact dlookup_map_key (treeFiles [] t) (fun f => fileKey f.1 f.2) _
      hndkeys f hf
  have hskip : ∀ f ∈ treeFiles [] t,
      process_file env2 (load_lock_file (some (save_doc now1
        (process_directory env1 cache1 [] t).hashes))) f.1 f.2 =
      ⟨some (((process_file env1 cache1 f.1 f.2).entry?).getD defaultEntry),
        false, ["Skipping [" ++ folderDisplay f.1 ++ "] " ++ (f.2 ++ ".png") ++
          " - already converted and unchanged"]⟩ := by
    intro f hf
    apply process_file_skip_eq
    · exact hlook f hf
    · have hs := process_file_entry_isSome env1 cache1 f.1 f.2 (henc _)
      obtain ⟨e, he⟩ := Option.isSome_iff_exists.mp hs
      have hih := process_file_entry_input_hash env1 cache1 f.1 f.2 e he
      rw [hhash, he]
      simpa using hih.symm
    · exact hwebp _
  have hcan2 : (process_directory env2 (load_lock_file (some (save_doc now1
      (process_directory env1 cache1 [] t).hashes))) [] t).hashes =
      (treeFiles [] t).filterMap (fileEntryPair env2
        (load_lock_file (some (save_doc now1
          (process_directory env1 cache1 [] t).hashes)))) :=
    pd_hashes_canonical env2 _ [] t hnd
  have heq : (process_directory env2 (load_lock_file (some (save_doc now1
      (process_directory env1 cache1 [] t).hashes))) [] t).hashes =
      (process_directory env1 cache1 [] t).hashes := by
    have hstep : (treeFiles [] t).filterMap (fileEntryPair env2
        (load_lock_file (some (save_doc now1
          (process_directory env1 cache1 [] t).hashes)))) =
        (treeFiles [] t).map (fun f => (fileKey f.1 f.2,
          ((process_file env1 cache1 f.1 f.2).entry?).getD defaultEntry)) := by
      apply filterMap_eq_map_of_forall_some
      intro f hf
      simp [fileEntryPair, hskip f hf]
    rw [hcan2, hstep, ← hmapform]
  have hzero : (process_directory env2 (load_lock_file (some (save_doc now1
      (process_directory env1 cache1 [] t).hashes))) [] t).conversions = 0 := by
    rw [pd_conversions_canonical env2 _ [] t]
    apply List.countP_eq_zero.mpr
    intro f hf
    simp [hskip f hf]
  refine ⟨hzero, heq, ?_⟩
  intro now2
  rw [heq]
  exact ⟨rfl, rfl, rfl, rfl⟩

/-- Witness for C9: a concrete second run over `tree6` performs zero
conversions. -/
theorem second_run_idempotent_witness :
    (process_directory envA (load_lock_file (some (save_doc "T1"
      (process_directory envB [] [] tree6).hashes))) [] tree6).conversions = 0 :=
  (second_run_idempotent envB envA [] tree6 "T1" (by decide)
    (fun _ => ⟨"h2", rfl, by decide⟩) rfl (fun _ => rfl)).1

/-- C10: for every directory the traversal visits - the root of the call
and every subdirectory, whether or not it contains matching files - the
mirrored output directory is created (with missing parents,
`mkdir(parents=True, exist_ok=True)`), and the creation is the first
operation of that subtree's trace, before any of its files or
subdirectories are processed. The first conjunct applies to every
recursive call, so it states the ordering for every visited directory. -/
theorem output_dirs_created_first (env : Env) (cache : Dict CacheEntry)
    (dirs : List String) (t : InputTree) :
    (∃ rest, (process_directory env cache dirs t).trace =
      TraceOp.mkdir dirs :: rest) ∧
    (∀ d ∈ treeDirs dirs t,
      TraceOp.mkdir d ∈ (process_directory env cache dirs t).trace) := by
  constructor
  · cases t with
    | node fs subs => exact ⟨_, rfl⟩
  · intro d hd
    exact pd_trace_mkdir env cache dirs t d hd

/-- Witness for C10: the empty subdirectory `a` still gets its mirrored
output directory created. -/
theorem output_dirs_created_first_witness :
    TraceOp.mkdir ["a"] ∈ (process_directory envB [] [] treeEmptyA).trace :=
  (output_dirs_created_first envB [] [] treeEmptyA).2 ["a"] (by decide)

/-- C8: for a mapping `M` with distinct keys, `save(load(save(M)))`
yields a persisted document whose entry mapping equals `M` (lookup for
lookup), with differences confined to the metadata timestamp (the entry
count and version are in fact unchanged). -/
theorem save_load_save_roundtrip (M : Dict CacheEntry) (now1 now2 : String)
    (hnd : (dkeys M).Nodup) :
    (∀ k, dlookup (flattenBuckets (filesOf (save_doc now2
        (load_lock_file (some (save_doc now1 M)))))) k = dlookup M k) ∧
    (metadataOf (save_doc now2
        (load_lock_file (some (save_doc now1 M))))).total_files =
      (metadataOf (save_doc now1 M)).total_files ∧
    (metadataOf (save_doc now2
        (load_lock_file (some (save_doc now1 M))))).version =
      (metadataOf (save_doc now1 M)).version ∧
    (metadataOf (save_doc now2
        (load_lock_file (some (save_doc now1 M))))).last_update = now2 := by
  have hperm1 : (load_lock_file (some (save_doc now1 M))).Perm M :=
    load_save_perm M now1 hnd
  have hndM2 : (dkeys (load_lock_file (some (save_doc now1 M)))).Nodup := by
    have hmap := hperm1.map Prod.fst
    have hM : (M.map Prod.fst).Nodup := by simpa [dkeys] using hnd
    simpa [dkeys] using hmap.nodup_iff.mpr hM
  refine ⟨?_, ?_, rfl, rfl⟩
  · intro k
    have hperm2 : (load_lock_file (some (save_doc now2
        (load_lock_file (some (save_doc now1 M)))))).Perm
        (load_lock_file (some (save_doc now1 M))) :=
      load_save_perm _ now2 hndM2
    have hndL : (dkeys (load_lock_file (some (save_doc now2
        (load_lock_file (some (save_doc now1 M))))))).Nodup := by
      have hmap2 := hperm2.map Prod.fst
      have hbase : ((load_lock_file (some (save_doc now1 M))).map Prod.fst).Nodup := by
        simpa [dkeys] using hndM2
      simpa [dkeys] using hmap2.nodup_iff.mpr hbase
    show dlookup (load_lock_file (some (save_doc now2
      (load_lock_file (some (save_doc now1 M)))))) k = dlookup M k
    rw [dlookup_perm_nodup _ _ hperm2 hndL k,
      dlookup_perm_nodup _ _ hperm1 hndM2 k]
  · exact hperm1.length_eq

/-- Witness for C8: the round trip preserves the `logo.png` entry. -/
theorem save_load_save_roundtrip_witness :
    dlookup (flattenBuckets (filesOf (save_doc "T2"
      (load_lock_file (some (save_doc "T1" cacheA)))))) "logo.png" =
      dlookup cacheA "logo.png" :=
  (save_load_save_roundtrip cacheA "T1" "T2" (by decide)).1 "logo.png"
